import Mathlib

set_option maxHeartbeats 1000000
set_option maxRecDepth 8192

/-!
Shallow embedding of the `vm_translator_rs` Hack VM translator
(`src/vm_translator.rs`), together with proofs about its parser and code
generator.

Rust `panic!` (including checked `u16` overflow, which aborts the process)
is modelled by `Option` failure: `none` means the translation run aborts.
Rust `u16` values are modelled as `Nat` together with the checked-addition
function `u16add`, which fails exactly when the sum does not fit in 16 bits.
-/

namespace VMTrans

/-! ## The parsed-instruction data model (`MemorySegment`, `ParsedVMInstruction`) -/

inductive MemorySegment where
  | Local
  | Argument
  | This
  | That
  | Constant
  | Static
  | Pointer
  | Temp
deriving Repr, DecidableEq

/-- `MemorySegment::seg_ptr`; the Rust version panics on the segments without
a direct pointer name, modelled by `none`. -/
def MemorySegment.seg_ptr : MemorySegment → Option String
  | MemorySegment.Local => some "LCL"
  | MemorySegment.Argument => some "ARG"
  | MemorySegment.This => some "THIS"
  | MemorySegment.That => some "THAT"
  | _ => none

inductive ParsedVMInstruction where
  | Add
  | Sub
  | Neg
  | Eq
  | Gt
  | Lt
  | And
  | Or
  | Not
  | Pop (segment : MemorySegment) (idx : Nat)
  | Push (segment : MemorySegment) (idx : Nat)
  | Label (label : String)
  | Goto (label : String)
  | IfGoto (label : String)
  | Function (name : String) (num_local_vars : Nat)
  | Call (name : String) (num_args : Nat)
  | Return
deriving Repr, DecidableEq

/-! ## The instruction parser (`parser::parse_instruction`) -/

/-- Decimal value of a list of digit characters, most significant first. -/
def decimalVal (l : List Char) : Nat :=
  l.foldl (fun a c => a * 10 + (c.toNat - 48)) 0

/-- Strip the single optional leading `+` sign accepted by Rust's unsigned
integer parser. -/
def stripPlus (l : List Char) : List Char :=
  match l with
  | c :: rest => if c = '+' then rest else c :: rest
  | [] => []

/-- Rust's `str::parse::<u16>`: an optional leading `+`, then one or more
ascii digits; fails on anything else and on values that do not fit in 16
bits. -/
def parseU16 (s : String) : Option Nat :=
  if stripPlus s.data = [] then none
  else if (stripPlus s.data).all Char.isDigit then
    if decimalVal (stripPlus s.data) ≤ 65535 then some (decimalVal (stripPlus s.data)) else none
  else none

/-- The `match` body of `parse_instruction`, over the token list produced by
splitting the input line on single spaces.  Every `panic!` of the Rust code
(unknown mnemonic, unknown segment, `pop constant`, missing token via
out-of-bounds indexing, failing integer parse) is `none`. -/
def parse_instruction_toks : List String → Option ParsedVMInstruction
  | [] => none
  | t0 :: rest =>
    match t0 with
    | "add" => some ParsedVMInstruction.Add
    | "sub" => some ParsedVMInstruction.Sub
    | "neg" => some ParsedVMInstruction.Neg
    | "eq" => some ParsedVMInstruction.Eq
    | "gt" => some ParsedVMInstruction.Gt
    | "lt" => some ParsedVMInstruction.Lt
    | "and" => some ParsedVMInstruction.And
    | "or" => some ParsedVMInstruction.Or
    | "not" => some ParsedVMInstruction.Not
    | "pop" =>
      match rest with
      | t1 :: t2 :: _ =>
        match t1 with
        | "local" => (parseU16 t2).map (fun idx => ParsedVMInstruction.Pop MemorySegment.Local idx)
        | "argument" => (parseU16 t2).map (fun idx => ParsedVMInstruction.Pop MemorySegment.Argument idx)
        | "this" => (parseU16 t2).map (fun idx => ParsedVMInstruction.Pop MemorySegment.This idx)
        | "that" => (parseU16 t2).map (fun idx => ParsedVMInstruction.Pop MemorySegment.That idx)
        | "static" => (parseU16 t2).map (fun idx => ParsedVMInstruction.Pop MemorySegment.Static idx)
        | "pointer" => (parseU16 t2).map (fun idx => ParsedVMInstruction.Pop MemorySegment.Pointer idx)
        | "temp" => (parseU16 t2).map (fun idx => ParsedVMInstruction.Pop MemorySegment.Temp idx)
        | _ => none
      | _ => none
    | "push" =>
      match rest with
      | t1 :: t2 :: _ =>
        match t1 with
        | "local" => (parseU16 t2).map (fun idx => ParsedVMInstruction.Push MemorySegment.Local idx)
        | "argument" => (parseU16 t2).map (fun idx => ParsedVMInstruction.Push MemorySegment.Argument idx)
        | "this" => (parseU16 t2).map (fun idx => ParsedVMInstruction.Push MemorySegment.This idx)
        | "that" => (parseU16 t2).map (fun idx => ParsedVMInstruction.Push MemorySegment.That idx)
        | "constant" => (parseU16 t2).map (fun idx => ParsedVMInstruction.Push MemorySegment.Constant idx)
        | "static" => (parseU16 t2).map (fun idx => ParsedVMInstruction.Push MemorySegment.Static idx)
        | "pointer" => (parseU16 t2).map (fun idx => ParsedVMInstruction.Push MemorySegment.Pointer idx)
        | "temp" => (parseU16 t2).map (fun idx => ParsedVMInstruction.Push MemorySegment.Temp idx)
        | _ => none
      | _ => none
    | "label" =>
      match rest with
      | t1 :: _ => some (ParsedVMInstruction.Label t1)
      | _ => none
    | "goto" =>
      match rest with
      | t1 :: _ => some (ParsedVMInstruction.Goto t1)
      | _ => none
    | "if-goto" =>
      match rest with
      | t1 :: _ => some (ParsedVMInstruction.IfGoto t1)
      | _ => none
    | "function" =>
      match rest with
      | t1 :: t2 :: _ => (parseU16 t2).map (fun n => ParsedVMInstruction.Function t1 n)
      | _ => none
    | "call" =>
      match rest with
      | t1 :: t2 :: _ => (parseU16 t2).map (fun n => ParsedVMInstruction.Call t1 n)
      | _ => none
    | "return" => some ParsedVMInstruction.Return
    | _ => none

/-- Rust's `str::split(" ")`: cut the character list at every single space,
keeping empty pieces (so two adjacent spaces yield an empty token and a tab
is not a separator). -/
def splitOnSpaceAux : List Char → List Char → List String
  | [], acc => [String.mk acc.reverse]
  | c :: rest, acc =>
    if c = ' ' then String.mk acc.reverse :: splitOnSpaceAux rest []
    else splitOnSpaceAux rest (c :: acc)

def splitOnSpace (l : List Char) : List String :=
  splitOnSpaceAux l []

/-- `parser::parse_instruction`: split the line on the single-space
separator (`instruction.split(" ")` in Rust) and classify the tokens. -/
def parse_instruction (instruction : String) : Option ParsedVMInstruction :=
  parse_instruction_toks (splitOnSpace instruction.data)

/-! ## The code generator (`translator::Translator`) -/

def ADD : List String := ["@SP", "AM=M-1", "D=M", "A=A-1", "M=M+D"]
def SUBTRACT : List String := ["@SP", "AM=M-1", "D=M", "A=A-1", "M=M-D"]
def NEG : List String := ["@SP", "A=M-1", "M=-M"]
def AND : List String := ["@SP", "AM=M-1", "D=M", "A=A-1", "M=D&M"]
def OR : List String := ["@SP", "AM=M-1", "D=M", "A=A-1", "M=D|M"]
def NOT : List String := ["@SP", "A=M-1", "M=!M"]
def RETURN : List String :=
  ["@LCL", "D=M", "@7", "M=D", "@5", "D=A", "@7", "A=M-D", "D=M", "@8", "M=D", "@SP", "A=M-1",
   "D=M", "@ARG", "A=M", "M=D", "@ARG", "D=M+1", "@SP", "M=D", "@7", "AM=M-1", "D=M", "@THAT",
   "M=D", "@7", "AM=M-1", "D=M", "@THIS", "M=D", "@7", "AM=M-1", "D=M", "@ARG", "M=D", "@7",
   "AM=M-1", "D=M", "@LCL", "M=D", "@8", "A=M", "0;JMP"]

def TEMP_OFFSET : Nat := 5

structure Translator where
  static_base : String
  asm : List String
  next_instr : Nat
  call_counter : Nat
deriving Repr, DecidableEq

def Translator.new (static_base : String) : Translator :=
  { static_base := static_base, asm := [], next_instr := 0, call_counter := 0 }

/-- Checked 16-bit addition: the Rust `u16` additions in the source abort the
process when the mathematical sum does not fit in 16 bits. -/
def u16add (a b : Nat) : Option Nat :=
  if a + b ≤ 65535 then some (a + b) else none

/-- `Translator::add_instr`: append the line; lines not beginning with `(`
advance the `next_instr` counter (a `u16`). -/
def Translator.add_instr (t : Translator) (instr : String) : Option Translator :=
  match instr.data.head? with
  | none => none
  | some c =>
    if c = '(' then some { t with asm := t.asm ++ [instr] }
    else (u16add t.next_instr 1).map fun n => { t with asm := t.asm ++ [instr], next_instr := n }

/-- `Translator::const_instr_to_vec`: `add_instr` each line of a list in
order. -/
def Translator.const_instr_to_vec (t : Translator) : List String → Option Translator
  | [] => some t
  | instr :: rest => do
    let t ← t.add_instr instr
    t.const_instr_to_vec rest

/-- `Translator::logical_comp` (used for `Eq`, `Gt`, `Lt`). -/
def Translator.logical_comp (t : Translator) (jmp_instr : String) : Option Translator := do
  let t ← t.const_instr_to_vec ["@SP", "AM=M-1", "D=M", "A=A-1", "D=M-D", "M=-1"]
  -- next_instr + 5 is how many instructions until the end of the current asm block
  t.const_instr_to_vec
    ["@" ++ Nat.repr (t.next_instr + 5), "D;" ++ jmp_instr, "@SP", "A=M-1", "M=0"]

/-- `Translator::basic_pop` (Local/Argument/This/That). -/
def Translator.basic_pop (t : Translator) (segment : MemorySegment) (idx : Nat) :
    Option Translator := do
  let sp ← segment.seg_ptr
  t.const_instr_to_vec
    ["@" ++ Nat.repr idx, "D=A", "@" ++ sp, "D=D+M", "@SP", "AM=M-1", "D=D+M", "A=D-M", "M=D-A"]

/-- `Translator::pop_temp`: `TEMP_OFFSET + idx` is a `u16` addition. -/
def Translator.pop_temp (t : Translator) (idx : Nat) : Option Translator := do
  let mem_addr ← u16add TEMP_OFFSET idx
  t.const_instr_to_vec ["@SP", "AM=M-1", "D=M", "@" ++ Nat.repr mem_addr, "M=D"]

/-- `Translator::pop_ptr`: index 0 targets `THIS`, index 1 targets `THAT`,
any other index panics. -/
def Translator.pop_ptr (t : Translator) (idx : Nat) : Option Translator := do
  let sp ←
    match idx with
    | 0 => MemorySegment.This.seg_ptr
    | 1 => MemorySegment.That.seg_ptr
    | _ => none
  t.const_instr_to_vec ["@SP", "AM=M-1", "D=M", "@" ++ sp, "M=D"]

/-- `Translator::pop_static`. -/
def Translator.pop_static (t : Translator) (idx : Nat) : Option Translator :=
  t.const_instr_to_vec
    ["@SP", "AM=M-1", "D=M", "@" ++ t.static_base ++ "." ++ Nat.repr idx, "M=D"]

/-- `Translator::push_const`. -/
def Translator.push_const (t : Translator) (idx : Nat) : Option Translator :=
  t.const_instr_to_vec ["@" ++ Nat.repr idx, "D=A", "@SP", "M=M+1", "A=M-1", "M=D"]

/-- `Translator::basic_push` (Local/Argument/This/That). -/
def Translator.basic_push (t : Translator) (segment : MemorySegment) (idx : Nat) :
    Option Translator := do
  let sp ← segment.seg_ptr
  t.const_instr_to_vec
    ["@" ++ Nat.repr idx, "D=A", "@" ++ sp, "A=D+M", "D=M", "@SP", "M=M+1", "A=M-1", "M=D"]

/-- `Translator::push_temp`. -/
def Translator.push_temp (t : Translator) (idx : Nat) : Option Translator := do
  let mem_addr ← u16add TEMP_OFFSET idx
  t.const_instr_to_vec ["@" ++ Nat.repr mem_addr, "D=M", "@SP", "M=M+1", "A=M-1", "M=D"]

/-- `Translator::push_ptr`. -/
def Translator.push_ptr (t : Translator) (idx : Nat) : Option Translator := do
  let sp ←
    match idx with
    | 0 => MemorySegment.This.seg_ptr
    | 1 => MemorySegment.That.seg_ptr
    | _ => none
  t.const_instr_to_vec ["@" ++ sp, "D=M", "@SP", "M=M+1", "A=M-1", "M=D"]

/-- `Translator::push_static`. -/
def Translator.push_static (t : Translator) (idx : Nat) : Option Translator :=
  t.const_instr_to_vec
    ["@" ++ t.static_base ++ "." ++ Nat.repr idx, "D=M", "@SP", "M=M+1", "A=M-1", "M=D"]

/-- `Translator::label_fn`. -/
def Translator.label_fn (t : Translator) (label : String) : Option Translator :=
  t.add_instr ("(" ++ label ++ ")")

/-- `Translator::goto`. -/
def Translator.goto (t : Translator) (label : String) : Option Translator :=
  t.const_instr_to_vec ["@" ++ label, "0;JMP"]

/-- `Translator::if_goto`. -/
def Translator.if_goto (t : Translator) (label : String) : Option Translator :=
  t.const_instr_to_vec ["@SP", "AM=M-1", "D=M", "@" ++ label, "D;JNE"]

/-- `Translator::function`: label line, then `num_local_vars` repetitions of
the four-line local initialization. -/
def Translator.function (t : Translator) (name : String) (num_local_vars : Nat) :
    Option Translator := do
  let t ← t.add_instr ("(" ++ name ++ ")")
  t.const_instr_to_vec (List.flatten (List.replicate num_local_vars ["@SP", "M=M+1", "A=M-1", "M=0"]))

/-- `Translator::call`: `arg_offset = 5 + num_args` and the final counter
increment are `u16` operations. -/
def Translator.call (t : Translator) (name : String) (num_args : Nat) : Option Translator := do
  let return_addr_label := name ++ "$ret." ++ Nat.repr t.call_counter
  let arg_offset ← u16add 5 num_args
  let t ← t.const_instr_to_vec
    ["@" ++ return_addr_label, "D=A", "@SP", "M=M+1", "A=M-1", "M=D",
     "@LCL", "D=M", "@SP", "M=M+1", "A=M-1", "M=D",
     "@ARG", "D=M", "@SP", "M=M+1", "A=M-1", "M=D",
     "@THIS", "D=M", "@SP", "M=M+1", "A=M-1", "M=D",
     "@THAT", "D=M", "@SP", "M=M+1", "A=M-1", "M=D",
     "@" ++ Nat.repr arg_offset, "D=A", "@SP", "D=M-D", "@ARG", "M=D",
     "@SP", "D=M", "@LCL", "M=D",
     "@" ++ name, "0;JMP",
     "(" ++ return_addr_label ++ ")"]
  let c ← u16add t.call_counter 1
  pure { t with call_counter := c }

/-- `Translator::translate`: dispatch on the parsed instruction.
`Pop Constant` panics (`none`). -/
def Translator.translate (t : Translator) (instruction : ParsedVMInstruction) :
    Option Translator :=
  match instruction with
  | ParsedVMInstruction.Add => t.const_instr_to_vec ADD
  | ParsedVMInstruction.Sub => t.const_instr_to_vec SUBTRACT
  | ParsedVMInstruction.Neg => t.const_instr_to_vec NEG
  | ParsedVMInstruction.Eq => t.logical_comp "JEQ"
  | ParsedVMInstruction.Gt => t.logical_comp "JGT"
  | ParsedVMInstruction.Lt => t.logical_comp "JLT"
  | ParsedVMInstruction.And => t.const_instr_to_vec AND
  | ParsedVMInstruction.Or => t.const_instr_to_vec OR
  | ParsedVMInstruction.Not => t.const_instr_to_vec NOT
  | ParsedVMInstruction.Pop segment idx =>
    match segment with
    | MemorySegment.Local => t.basic_pop MemorySegment.Local idx
    | MemorySegment.Argument => t.basic_pop MemorySegment.Argument idx
    | MemorySegment.This => t.basic_pop MemorySegment.This idx
    | MemorySegment.That => t.basic_pop MemorySegment.That idx
    | MemorySegment.Constant => none
    | MemorySegment.Static => t.pop_static idx
    | MemorySegment.Pointer => t.pop_ptr idx
    | MemorySegment.Temp => t.pop_temp idx
  | ParsedVMInstruction.Push segment idx =>
    match segment with
    | MemorySegment.Local => t.basic_push MemorySegment.Local idx
    | MemorySegment.Argument => t.basic_push MemorySegment.Argument idx
    | MemorySegment.This => t.basic_push MemorySegment.This idx
    | MemorySegment.That => t.basic_push MemorySegment.That idx
    | MemorySegment.Constant => t.push_const idx
    | MemorySegment.Static => t.push_static idx
    | MemorySegment.Pointer => t.push_ptr idx
    | MemorySegment.Temp => t.push_temp idx
  | ParsedVMInstruction.Label label => t.label_fn label
  | ParsedVMInstruction.Goto label => t.goto label
  | ParsedVMInstruction.IfGoto label => t.if_goto label
  | ParsedVMInstruction.Function name num_local_vars => t.function name num_local_vars
  | ParsedVMInstruction.Call name num_args => t.call name num_args
  | ParsedVMInstruction.Return => t.const_instr_to_vec RETURN

/-- `Translator::set_bootstrap`: initialize the stack pointer to 256, then
synthesize `call Sys.init 0` as an ordinary call. -/
def Translator.set_bootstrap (t : Translator) : Option Translator := do
  let t ← t.const_instr_to_vec ["@256", "D=A", "@SP", "M=D"]
  t.call "Sys.init" 0

/-- The parse-then-translate loop shared by `translate_file` and
`translate_directory`. -/
def translate_lines (t : Translator) : List String → Option Translator
  | [] => some t
  | line :: rest => do
    let instruction ← parse_instruction line
    let t ← t.translate instruction
    translate_lines t rest

/-- `translate_file`, with the externally supplied base name and
comment-stripped lines as inputs. -/
def translate_file (static_base : String) (lines : List String) : Option (List String) := do
  let t ← translate_lines (Translator.new static_base) lines
  pure t.asm

/-- The per-unit loop of `translate_directory`: re-namespace `static_base`
for each unit, keep all counters. -/
def translate_units (t : Translator) : List (String × List String) → Option Translator
  | [] => some t
  | u :: rest => do
    let t ← translate_lines { t with static_base := u.1 } u.2
    translate_units t rest

/-- `translate_directory`, with the directory listing abstracted to an
ordered list of (base name, lines) units. -/
def translate_directory (units : List (String × List String)) : Option (List String) := do
  let t ← Translator.set_bootstrap (Translator.new "")
  let t ← translate_units t units
  pure t.asm

/-! ## Observers used to state the theorems -/

/-- Number of lines in a list that advance the instruction counter
(all lines not beginning with `(`). -/
def instrCount : List String → Nat
  | [] => 0
  | l :: ls => (if l.data.head? = some '(' then 0 else 1) + instrCount ls

/-- The return-address label synthesized by `Translator::call`. -/
def retLabel (name : String) (counter : Nat) : String :=
  name ++ "$ret." ++ Nat.repr counter

/-- The block of lines emitted by `logical_comp` when entered with
instruction counter `n`. -/
def compBlock (jmp_instr : String) (n : Nat) : List String :=
  ["@SP", "AM=M-1", "D=M", "A=A-1", "D=M-D", "M=-1",
   "@" ++ Nat.repr (n + 11), "D;" ++ jmp_instr, "@SP", "A=M-1", "M=0"]

/-- The block of lines emitted by `Translator::call` when entered with
call counter `counter`. -/
def callBlock (name : String) (num_args : Nat) (counter : Nat) : List String :=
  ["@" ++ retLabel name counter, "D=A", "@SP", "M=M+1", "A=M-1", "M=D",
   "@LCL", "D=M", "@SP", "M=M+1", "A=M-1", "M=D",
   "@ARG", "D=M", "@SP", "M=M+1", "A=M-1", "M=D",
   "@THIS", "D=M", "@SP", "M=M+1", "A=M-1", "M=D",
   "@THAT", "D=M", "@SP", "M=M+1", "A=M-1", "M=D",
   "@" ++ Nat.repr (5 + num_args), "D=A", "@SP", "D=M-D", "@ARG", "M=D",
   "@SP", "D=M", "@LCL", "M=D",
   "@" ++ name, "0;JMP",
   "(" ++ retLabel name counter ++ ")"]

/-- The bootstrap prologue of a directory translation: stack-pointer
initialization followed by the ordinary `call Sys.init 0` sequence at call
counter 0. -/
def bootstrapAsm : List String :=
  ["@256", "D=A", "@SP", "M=D"] ++ callBlock "Sys.init" 0 0

/-- Number of `Sys.init` call sites in an output listing: occurrences of the
line `@Sys.init` immediately followed by the line `0;JMP`. -/
def sysInitSites : List String → Nat
  | a :: b :: rest =>
    (if a = "@Sys.init" ∧ b = "0;JMP" then 1 else 0) + sysInitSites (b :: rest)
  | _ => 0

/-! ## Decimal digits of `Nat.repr` -/

/-- The decimal digit characters of `n`, most significant first. -/
def digitsOf (n : Nat) : List Char :=
  if _h : n < 10 then [Nat.digitChar n]
  else digitsOf (n / 10) ++ [Nat.digitChar (n % 10)]
decreasing_by exact Nat.div_lt_self (by omega) (by omega)

theorem digitsOf_lt {n : Nat} (h : n < 10) : digitsOf n = [Nat.digitChar n] := by
  rw [digitsOf]
  exact dif_pos h

theorem digitsOf_ge {n : Nat} (h : ¬ n < 10) :
    digitsOf n = digitsOf (n / 10) ++ [Nat.digitChar (n % 10)] := by
  conv_lhs => rw [digitsOf]
  exact dif_neg h

theorem toDigitsCore_eq_digitsOf (fuel n : Nat) (ds : List Char) (h : n < fuel) :
    Nat.toDigitsCore 10 fuel n ds = digitsOf n ++ ds := by
  induction fuel generalizing n ds with
  | zero => omega
  | succ f ih =>
    rw [Nat.toDigitsCore]
    by_cases h10 : n / 10 = 0
    · have hn : n < 10 := by omega
      simp only [h10, if_pos]
      rw [digitsOf_lt hn, Nat.mod_eq_of_lt hn]
      simp
    · have hn : ¬ n < 10 := by
        intro hlt
        exact h10 (Nat.div_eq_of_lt hlt)
      simp only [h10, if_neg, ite_false]
      rw [ih (n / 10) _ (by
        have h1 : n / 10 < n := Nat.div_lt_self (by omega) (by omega)
        omega)]
      rw [digitsOf_ge hn]
      simp

theorem repr_data (n : Nat) : (Nat.repr n).data = digitsOf n := by
  show (Nat.toDigits 10 n).asString.data = digitsOf n
  rw [Nat.toDigits, toDigitsCore_eq_digitsOf (n + 1) n [] (by omega)]
  simp [List.asString]

theorem digitChar_isDigit {k : Nat} (h : k < 10) : (Nat.digitChar k).isDigit = true := by
  interval_cases k <;> decide

theorem digitChar_sub48 {k : Nat} (h : k < 10) : (Nat.digitChar k).toNat - 48 = k := by
  interval_cases k <;> decide

theorem digitsOf_ne_nil (n : Nat) : digitsOf n ≠ [] := by
  by_cases h : n < 10
  · rw [digitsOf_lt h]
    simp
  · rw [digitsOf_ge h]
    simp

theorem digitsOf_all_isDigit (n : Nat) : ∀ c ∈ digitsOf n, c.isDigit = true := by
  induction n using Nat.strong_induction_on with
  | _ n ih =>
    by_cases h : n < 10
    · rw [digitsOf_lt h]
      intro c hc
      rw [List.mem_singleton] at hc
      subst hc
      exact digitChar_isDigit h
    · rw [digitsOf_ge h]
      intro c hc
      rcases List.mem_append.mp hc with hc | hc
      · exact ih (n / 10) (Nat.div_lt_self (by omega) (by omega)) c hc
      · rw [List.mem_singleton] at hc
        subst hc
        exact digitChar_isDigit (Nat.mod_lt _ (by omega))

theorem decimalVal_digitsOf (n : Nat) : decimalVal (digitsOf n) = n := by
  induction n using Nat.strong_induction_on with
  | _ n ih =>
    by_cases h : n < 10
    · rw [digitsOf_lt h]
      simp only [decimalVal, List.foldl_cons, List.foldl_nil]
      rw [digitChar_sub48 h]
      omega
    · rw [digitsOf_ge h]
      rw [decimalVal, List.foldl_append]
      have hdiv : n / 10 < n := Nat.div_lt_self (by omega) (by omega)
      have hv := ih (n / 10) hdiv
      rw [decimalVal] at hv
      rw [hv]
      simp only [List.foldl_cons, List.foldl_nil]
      rw [digitChar_sub48 (Nat.mod_lt _ (by omega))]
      omega

theorem repr_injective {a b : Nat} (h : Nat.repr a = Nat.repr b) : a = b := by
  have hd : digitsOf a = digitsOf b := by
    rw [← repr_data, ← repr_data, h]
  have := congrArg decimalVal hd
  rwa [decimalVal_digitsOf, decimalVal_digitsOf] at this

theorem digitsOf_mem_ne {n : Nat} {c : Char} (hc : c ∈ digitsOf n) (hd : c.isDigit = false) :
    False := by
  rw [digitsOf_all_isDigit n c hc] at hd
  exact Bool.noConfusion hd

theorem stripPlus_digitsOf (n : Nat) : stripPlus (digitsOf n) = digitsOf n := by
  rcases hd : digitsOf n with _ | ⟨c, r⟩
  · rfl
  · rw [stripPlus]
    rw [if_neg]
    intro hc
    subst hc
    exact digitsOf_mem_ne (hd ▸ List.mem_cons_self _ _) (by decide)

theorem parseU16_some_le {s : String} {n : Nat} (h : parseU16 s = some n) : n ≤ 65535 := by
  unfold parseU16 at h
  split at h
  · exact Option.noConfusion h
  · split at h
    · split at h
      · rename_i hle
        rw [Option.some.injEq] at h
        omega
      · exact Option.noConfusion h
    · exact Option.noConfusion h

theorem parseU16_repr_le (n : Nat) (h : n ≤ 65535) : parseU16 (Nat.repr n) = some n := by
  unfold parseU16
  rw [repr_data, stripPlus_digitsOf]
  rw [if_neg (digitsOf_ne_nil n)]
  rw [if_pos (List.all_eq_true.mpr (fun c hc => digitsOf_all_isDigit n c hc))]
  rw [decimalVal_digitsOf]
  exact if_pos h

theorem parseU16_repr_gt (n : Nat) (h : 65535 < n) : parseU16 (Nat.repr n) = none := by
  unfold parseU16
  rw [repr_data, stripPlus_digitsOf]
  rw [if_neg (digitsOf_ne_nil n)]
  rw [if_pos (List.all_eq_true.mpr (fun c hc => digitsOf_all_isDigit n c hc))]
  rw [decimalVal_digitsOf]
  exact if_neg (by omega)

theorem parseU16_dash (s : String) : parseU16 ("-" ++ s) = none := by
  unfold parseU16
  have hdata : ("-" ++ s).data = '-' :: s.data := by
    rw [String.data_append]
    rfl
  have hsp : stripPlus ('-' :: s.data) = '-' :: s.data := by
    rw [stripPlus]
    exact if_neg (by decide)
  rw [hdata, hsp]
  have h1 : ¬ ('-' :: s.data = []) := by simp
  have h2 : ¬ (('-' :: s.data).all Char.isDigit = true) := by simp
  rw [if_neg h1, if_neg h2]

/-! ## Characterizations of the generator helpers -/

theorem const_instr_to_vec_char (ls : List String) :
    ∀ t : Translator, t.next_instr ≤ 65535 → (∀ l ∈ ls, l.data ≠ []) →
    t.const_instr_to_vec ls =
      if t.next_instr + instrCount ls ≤ 65535 then
        some { t with asm := t.asm ++ ls, next_instr := t.next_instr + instrCount ls }
      else none := by
  induction ls with
  | nil =>
    intro t ht _
    rw [Translator.const_instr_to_vec, instrCount]
    rw [if_pos (by omega)]
    simp
  | cons l ls ih =>
    intro t ht hnn
    obtain ⟨c, r, hl⟩ : ∃ c r, l.data = c :: r := by
      rcases hd : l.data with _ | ⟨c, r⟩
      · exact absurd hd (hnn l (List.mem_cons_self _ _))
      · exact ⟨c, r, rfl⟩
    have hmem : ∀ x ∈ ls, x.data ≠ [] := fun x hx => hnn x (List.mem_cons_of_mem _ hx)
    have hcount : instrCount (l :: ls) = (if c = '(' then 0 else 1) + instrCount ls := by
      rw [instrCount, hl]
      simp only [List.head?_cons, Option.some.injEq]
    rw [Translator.const_instr_to_vec]
    rw [Translator.add_instr, hl]
    simp only [List.head?_cons, Option.pure_def, Option.bind_eq_bind]
    by_cases hc : c = '('
    · rw [if_pos hc, hcount, if_pos hc]
      rw [Option.some_bind]
      have ih' : ({ t with asm := t.asm ++ [l] } : Translator).const_instr_to_vec ls =
          if t.next_instr + instrCount ls ≤ 65535 then
            some { t with asm := (t.asm ++ [l]) ++ ls, next_instr := t.next_instr + instrCount ls }
          else none := ih _ ht hmem
      rw [ih', List.append_assoc, List.singleton_append, Nat.zero_add]
    · rw [if_neg hc, hcount, if_neg hc]
      by_cases h1 : t.next_instr + 1 ≤ 65535
      · rw [u16add, if_pos h1]
        simp only [Option.map_some']
        rw [Option.some_bind]
        have ih' : ({ t with asm := t.asm ++ [l], next_instr := t.next_instr + 1 } : Translator).const_instr_to_vec ls =
            if t.next_instr + 1 + instrCount ls ≤ 65535 then
              some { t with asm := (t.asm ++ [l]) ++ ls, next_instr := t.next_instr + 1 + instrCount ls }
            else none := ih _ h1 hmem
        have harith : t.next_instr + 1 + instrCount ls = t.next_instr + (1 + instrCount ls) := by
          omega
        rw [ih', harith, List.append_assoc, List.singleton_append]
      · rw [u16add, if_neg h1]
        simp only [Option.map_none', Option.none_bind]
        have hb : ¬ t.next_instr + (1 + instrCount ls) ≤ 65535 := by omega
        rw [if_neg hb]

/-! ## String-shape helper lemmas -/

theorem at_data (s : String) : ("@" ++ s).data = '@' :: s.data := by
  rw [String.data_append]
  rfl

theorem dsemi_data (s : String) : ("D;" ++ s).data = 'D' :: ';' :: s.data := by
  rw [String.data_append]
  rfl

theorem paren_data (s : String) : ("(" ++ s ++ ")").data = '(' :: (s.data ++ [')']) := by
  rw [String.data_append, String.data_append]
  rfl

theorem at2_data (b r : String) : ("@" ++ b ++ "." ++ r).data = '@' :: (b.data ++ '.' :: r.data) := by
  rw [String.data_append, String.data_append, String.data_append]
  simp

theorem at_head (s : String) : ("@" ++ s).data.head? = some '@' := by
  rw [at_data]
  rfl

theorem dsemi_head (s : String) : ("D;" ++ s).data.head? = some 'D' := by
  rw [dsemi_data]
  rfl

theorem paren_head (s : String) : ("(" ++ s ++ ")").data.head? = some '(' := by
  rw [paren_data]
  rfl

theorem at2_head (b r : String) : ("@" ++ b ++ "." ++ r).data.head? = some '@' := by
  rw [at2_data]
  rfl

theorem at_ne_nil (s : String) : ("@" ++ s).data ≠ [] := by
  rw [at_data]
  simp

theorem dsemi_ne_nil (s : String) : ("D;" ++ s).data ≠ [] := by
  rw [dsemi_data]
  simp

theorem paren_ne_nil (s : String) : ("(" ++ s ++ ")").data ≠ [] := by
  rw [paren_data]
  simp

theorem at2_ne_nil (b r : String) : ("@" ++ b ++ "." ++ r).data ≠ [] := by
  rw [at2_data]
  simp

theorem at_ne_jmp (s : String) : ¬ ("@" ++ s = "0;JMP") := by
  intro h
  have h2 := congrArg String.data h
  rw [at_data] at h2
  have h3 : ("0;JMP").data = '0' :: ";JMP".data := rfl
  rw [h3] at h2
  exact absurd (List.head_eq_of_cons_eq h2) (by decide)

theorem jmp_ne_at (s : String) : ¬ ("0;JMP" = "@" ++ s) := fun h => at_ne_jmp s h.symm

theorem dsemi_ne_jmp (s : String) : ¬ ("D;" ++ s = "0;JMP") := by
  intro h
  have h2 := congrArg String.data h
  rw [dsemi_data] at h2
  have h3 : ("0;JMP").data = '0' :: ";JMP".data := rfl
  rw [h3] at h2
  exact absurd (List.head_eq_of_cons_eq h2) (by decide)

theorem jmp_ne_dsemi (s : String) : ¬ ("0;JMP" = "D;" ++ s) := fun h => dsemi_ne_jmp s h.symm

theorem paren_ne_jmp (s : String) : ¬ ("(" ++ s ++ ")" = "0;JMP") := by
  intro h
  have h2 := congrArg String.data h
  rw [paren_data] at h2
  have h3 : ("0;JMP").data = '0' :: ";JMP".data := rfl
  rw [h3] at h2
  exact absurd (List.head_eq_of_cons_eq h2) (by decide)

theorem jmp_ne_paren (s : String) : ¬ ("0;JMP" = "(" ++ s ++ ")") := fun h => paren_ne_jmp s h.symm

theorem at2_ne_jmp (b r : String) : ¬ ("@" ++ b ++ "." ++ r = "0;JMP") := by
  intro h
  have h2 := congrArg String.data h
  rw [at2_data] at h2
  have h3 : ("0;JMP").data = '0' :: ";JMP".data := rfl
  rw [h3] at h2
  exact absurd (List.head_eq_of_cons_eq h2) (by decide)

theorem jmp_ne_at2 (b r : String) : ¬ ("0;JMP" = "@" ++ b ++ "." ++ r) :=
  fun h => at2_ne_jmp b r h.symm

theorem at_inj {a b : String} (h : "@" ++ a = "@" ++ b) : a = b := by
  have h2 := congrArg String.data h
  rw [at_data, at_data] at h2
  exact String.ext (List.tail_eq_of_cons_eq h2)

theorem at_eq_sysinit (a : String) : ("@" ++ a = "@Sys.init") ↔ a = "Sys.init" := by
  constructor
  · intro h
    exact at_inj (h.trans (by rfl))
  · intro h
    subst h
    rfl

/-! ## Success-extraction lemmas for the generator -/

theorem add_instr_some {t t' : Translator} {l : String} (h : t.add_instr l = some t') :
    t'.asm = t.asm ++ [l] ∧ t.next_instr ≤ t'.next_instr ∧
    t'.call_counter = t.call_counter ∧ t'.static_base = t.static_base := by
  rw [Translator.add_instr] at h
  split at h
  · exact Option.noConfusion h
  · split at h
    · rw [Option.some.injEq] at h
      subst h
      exact ⟨rfl, le_refl _, rfl, rfl⟩
    · rw [u16add] at h
      split at h
      · simp only [Option.map_some', Option.some.injEq] at h
        subst h
        exact ⟨rfl, Nat.le_succ t.next_instr, rfl, rfl⟩
      · simp only [Option.map_none'] at h
        exact Option.noConfusion h

theorem const_instr_to_vec_some {ls : List String} :
    ∀ {t t' : Translator}, t.const_instr_to_vec ls = some t' →
    t'.asm = t.asm ++ ls ∧ t.next_instr ≤ t'.next_instr ∧
    t'.call_counter = t.call_counter ∧ t'.static_base = t.static_base := by
  induction ls with
  | nil =>
    intro t t' h
    rw [Translator.const_instr_to_vec, Option.some.injEq] at h
    subst h
    exact ⟨by simp, le_refl _, rfl, rfl⟩
  | cons l ls ih =>
    intro t t' h
    rw [Translator.const_instr_to_vec] at h
    simp only [Option.pure_def, Option.bind_eq_bind, Option.bind_eq_some] at h
    obtain ⟨t1, h1, h2⟩ := h
    obtain ⟨ha1, hn1, hc1, hs1⟩ := add_instr_some h1
    obtain ⟨ha2, hn2, hc2, hs2⟩ := ih h2
    refine ⟨?_, by omega, by rw [hc2, hc1], by rw [hs2, hs1]⟩
    rw [ha2, ha1, List.append_assoc, List.singleton_append]

/-! ## Counting `Sys.init` call sites -/

theorem sysInitSites_nil : sysInitSites [] = 0 := rfl

theorem sysInitSites_single (a : String) : sysInitSites [a] = 0 := rfl

theorem sysInitSites_cons2 (a b : String) (rest : List String) :
    sysInitSites (a :: b :: rest) =
      (if a = "@Sys.init" ∧ b = "0;JMP" then 1 else 0) + sysInitSites (b :: rest) := rfl

theorem sysInitSites_append (A B : List String)
    (hB : ∀ b0, B.head? = some b0 → b0 ≠ "0;JMP") :
    sysInitSites (A ++ B) = sysInitSites A + sysInitSites B := by
  induction A with
  | nil => simp [sysInitSites_nil]
  | cons a A ih =>
    cases A with
    | nil =>
      cases B with
      | nil => simp [sysInitSites_nil, sysInitSites_single]
      | cons b B' =>
        rw [List.singleton_append, sysInitSites_cons2, sysInitSites_single]
        have hb : b ≠ "0;JMP" := hB b rfl
        rw [if_neg (by intro hcon; exact hb hcon.2)]
    | cons a2 A' =>
      rw [List.cons_append, List.cons_append, sysInitSites_cons2, ← List.cons_append,
        ih, sysInitSites_cons2]
      omega

theorem sysInitSites_zero (l : List String) (h : "0;JMP" ∉ l) : sysInitSites l = 0 := by
  induction l with
  | nil => rfl
  | cons a l ih =>
    cases l with
    | nil => rfl
    | cons b l' =>
      rw [sysInitSites_cons2]
      have hb : b ≠ "0;JMP" := by
        intro hcon
        exact h (by rw [hcon]; exact List.mem_cons_of_mem _ (List.mem_cons_self _ _))
      rw [if_neg (by intro hcon; exact hb hcon.2)]
      rw [ih (fun hm => h (List.mem_cons_of_mem _ hm))]

/-! ## `instrCount` helpers -/

theorem instrCount_append (A B : List String) :
    instrCount (A ++ B) = instrCount A + instrCount B := by
  induction A with
  | nil => simp [instrCount]
  | cons a A ih =>
    rw [List.cons_append, instrCount, instrCount, ih]
    omega

theorem instrCount_flatten_replicate4 (k : Nat) :
    instrCount (List.flatten (List.replicate k ["@SP", "M=M+1", "A=M-1", "M=0"])) = 4 * k := by
  induction k with
  | zero => rfl
  | succ k ih =>
    rw [List.replicate_succ, List.flatten_cons, instrCount_append, ih]
    have : instrCount ["@SP", "M=M+1", "A=M-1", "M=0"] = 4 := by decide
    rw [this]
    omega

theorem mem_flatten_replicate4 (k : Nat) (l : String)
    (h : l ∈ List.flatten (List.replicate k ["@SP", "M=M+1", "A=M-1", "M=0"])) :
    l ∈ (["@SP", "M=M+1", "A=M-1", "M=0"] : List String) := by
  rw [List.mem_flatten] at h
  obtain ⟨L, hL, hl⟩ := h
  rw [List.eq_of_mem_replicate hL] at hl
  exact hl

/-! ## The per-instruction step lemma -/

/-- How many `Sys.init` call-site patterns a single instruction's block
contributes. -/
def sysJumpTarget : ParsedVMInstruction → Nat
  | ParsedVMInstruction.Goto l => if l = "Sys.init" then 1 else 0
  | ParsedVMInstruction.Call n _ => if n = "Sys.init" then 1 else 0
  | _ => 0

theorem head_ne_of_eq {B : List String} {x : String} (hx : B.head? = some x)
    (hne : x ≠ "0;JMP") : ∀ b0, B.head? = some b0 → b0 ≠ "0;JMP" := by
  intro b0 hb
  rw [hx, Option.some.injEq] at hb
  subst hb
  exact hne

/-- The conclusion of `translate_step`, as a predicate. -/
def StepFacts (t t' : Translator) (n : Nat) : Prop :=
  ∃ B, t'.asm = t.asm ++ B ∧ t.next_instr ≤ t'.next_instr ∧ t.call_counter ≤ t'.call_counter ∧
    t'.static_base = t.static_base ∧ (∀ b0, B.head? = some b0 → b0 ≠ "0;JMP") ∧
    sysInitSites B = n

theorem step_of_const {t t' : Translator} {ls : List String} {n : Nat}
    (h : t.const_instr_to_vec ls = some t')
    (hhead : ∀ b0, ls.head? = some b0 → b0 ≠ "0;JMP") (hcount : sysInitSites ls = n) :
    StepFacts t t' n := by
  obtain ⟨ha, hn, hc, hs⟩ := const_instr_to_vec_some h
  exact ⟨ls, ha, hn, hc.ge, hs, hhead, hcount⟩

theorem translate_step {t t' : Translator} (i : ParsedVMInstruction)
    (h : t.translate i = some t') : StepFacts t t' (sysJumpTarget i) := by
  cases i with
  | Add =>
    simp only [Translator.translate] at h
    exact step_of_const h (head_ne_of_eq rfl (by decide)) (by decide)
  | Sub =>
    simp only [Translator.translate] at h
    exact step_of_const h (head_ne_of_eq rfl (by decide)) (by decide)
  | Neg =>
    simp only [Translator.translate] at h
    exact step_of_const h (head_ne_of_eq rfl (by decide)) (by decide)
  | And =>
    simp only [Translator.translate] at h
    exact step_of_const h (head_ne_of_eq rfl (by decide)) (by decide)
  | Or =>
    simp only [Translator.translate] at h
    exact step_of_const h (head_ne_of_eq rfl (by decide)) (by decide)
  | Not =>
    simp only [Translator.translate] at h
    exact step_of_const h (head_ne_of_eq rfl (by decide)) (by decide)
  | Return =>
    simp only [Translator.translate] at h
    exact step_of_const h (head_ne_of_eq rfl (by decide)) (by decide)
  | Eq =>
    simp only [Translator.translate, Translator.logical_comp] at h
    simp only [Option.pure_def, Option.bind_eq_bind, Option.bind_eq_some] at h
    obtain ⟨t1, h1, h2⟩ := h
    obtain ⟨ha1, hn1, hc1, hs1⟩ := const_instr_to_vec_some h1
    obtain ⟨ha2, hn2, hc2, hs2⟩ := const_instr_to_vec_some h2
    refine ⟨["@SP", "AM=M-1", "D=M", "A=A-1", "D=M-D", "M=-1"] ++
      ["@" ++ Nat.repr (t1.next_instr + 5), "D;" ++ "JEQ", "@SP", "A=M-1", "M=0"],
      ?_, by omega, (hc2.trans hc1).ge, hs2.trans hs1, ?_, ?_⟩
    · rw [ha2, ha1, List.append_assoc]
    · exact head_ne_of_eq rfl (by decide)
    · rw [sysInitSites_zero _ (by simp [jmp_ne_at, jmp_ne_dsemi])]
      rfl
  | Gt =>
    simp only [Translator.translate, Translator.logical_comp] at h
    simp only [Option.pure_def, Option.bind_eq_bind, Option.bind_eq_some] at h
    obtain ⟨t1, h1, h2⟩ := h
    obtain ⟨ha1, hn1, hc1, hs1⟩ := const_instr_to_vec_some h1
    obtain ⟨ha2, hn2, hc2, hs2⟩ := const_instr_to_vec_some h2
    refine ⟨["@SP", "AM=M-1", "D=M", "A=A-1", "D=M-D", "M=-1"] ++
      ["@" ++ Nat.repr (t1.next_instr + 5), "D;" ++ "JGT", "@SP", "A=M-1", "M=0"],
      ?_, by omega, (hc2.trans hc1).ge, hs2.trans hs1, ?_, ?_⟩
    · rw [ha2, ha1, List.append_assoc]
    · exact head_ne_of_eq rfl (by decide)
    · rw [sysInitSites_zero _ (by simp [jmp_ne_at, jmp_ne_dsemi])]
      rfl
  | Lt =>
    simp only [Translator.translate, Translator.logical_comp] at h
    simp only [Option.pure_def, Option.bind_eq_bind, Option.bind_eq_some] at h
    obtain ⟨t1, h1, h2⟩ := h
    obtain ⟨ha1, hn1, hc1, hs1⟩ := const_instr_to_vec_some h1
    obtain ⟨ha2, hn2, hc2, hs2⟩ := const_instr_to_vec_some h2
    refine ⟨["@SP", "AM=M-1", "D=M", "A=A-1", "D=M-D", "M=-1"] ++
      ["@" ++ Nat.repr (t1.next_instr + 5), "D;" ++ "JLT", "@SP", "A=M-1", "M=0"],
      ?_, by omega, (hc2.trans hc1).ge, hs2.trans hs1, ?_, ?_⟩
    · rw [ha2, ha1, List.append_assoc]
    · exact head_ne_of_eq rfl (by decide)
    · rw [sysInitSites_zero _ (by simp [jmp_ne_at, jmp_ne_dsemi])]
      rfl
  | Pop segment idx =>
    cases segment with
    | Local =>
      simp only [Translator.translate, Translator.basic_pop, MemorySegment.seg_ptr,
        Option.pure_def, Option.bind_eq_bind, Option.some_bind] at h
      exact step_of_const h (head_ne_of_eq rfl (at_ne_jmp _))
        (sysInitSites_zero _ (by simp [jmp_ne_at]))
    | Argument =>
      simp only [Translator.translate, Translator.basic_pop, MemorySegment.seg_ptr,
        Option.pure_def, Option.bind_eq_bind, Option.some_bind] at h
      exact step_of_const h (head_ne_of_eq rfl (at_ne_jmp _))
        (sysInitSites_zero _ (by simp [jmp_ne_at]))
    | This =>
      simp only [Translator.translate, Translator.basic_pop, MemorySegment.seg_ptr,
        Option.pure_def, Option.bind_eq_bind, Option.some_bind] at h
      exact step_of_const h (head_ne_of_eq rfl (at_ne_jmp _))
        (sysInitSites_zero _ (by simp [jmp_ne_at]))
    | That =>
      simp only [Translator.translate, Translator.basic_pop, MemorySegment.seg_ptr,
        Option.pure_def, Option.bind_eq_bind, Option.some_bind] at h
      exact step_of_const h (head_ne_of_eq rfl (at_ne_jmp _))
        (sysInitSites_zero _ (by simp [jmp_ne_at]))
    | Constant =>
      simp only [Translator.translate] at h
      exact Option.noConfusion h
    | Static =>
      simp only [Translator.translate, Translator.pop_static] at h
      exact step_of_const h (head_ne_of_eq rfl (by decide))
        (sysInitSites_zero _ (by simp [jmp_ne_at2]))
    | Pointer =>
      simp only [Translator.translate, Translator.pop_ptr] at h
      match idx with
      | 0 =>
        simp only [MemorySegment.seg_ptr, Option.pure_def, Option.bind_eq_bind,
          Option.some_bind] at h
        exact step_of_const h (head_ne_of_eq rfl (by decide))
          (sysInitSites_zero _ (by simp [jmp_ne_at]))
      | 1 =>
        simp only [MemorySegment.seg_ptr, Option.pure_def, Option.bind_eq_bind,
          Option.some_bind] at h
        exact step_of_const h (head_ne_of_eq rfl (by decide))
          (sysInitSites_zero _ (by simp [jmp_ne_at]))
      | (m + 2) =>
        simp only [Option.pure_def, Option.bind_eq_bind, Option.none_bind] at h
        exact Option.noConfusion h
    | Temp =>
      simp only [Translator.translate, Translator.pop_temp] at h
      simp only [Option.pure_def, Option.bind_eq_bind, Option.bind_eq_some] at h
      obtain ⟨m, _, h2⟩ := h
      exact step_of_const h2 (head_ne_of_eq rfl (by decide))
        (sysInitSites_zero _ (by simp [jmp_ne_at]))
  | Push segment idx =>
    cases segment with
    | Local =>
      simp only [Translator.translate, Translator.basic_push, MemorySegment.seg_ptr,
        Option.pure_def, Option.bind_eq_bind, Option.some_bind] at h
      exact step_of_const h (head_ne_of_eq rfl (at_ne_jmp _))
        (sysInitSites_zero _ (by simp [jmp_ne_at]))
    | Argument =>
      simp only [Translator.translate, Translator.basic_push, MemorySegment.seg_ptr,
        Option.pure_def, Option.bind_eq_bind, Option.some_bind] at h
      exact step_of_const h (head_ne_of_eq rfl (at_ne_jmp _))
        (sysInitSites_zero _ (by simp [jmp_ne_at]))
    | This =>
      simp only [Translator.translate, Translator.basic_push, MemorySegment.seg_ptr,
        Option.pure_def, Option.bind_eq_bind, Option.some_bind] at h
      exact step_of_const h (head_ne_of_eq rfl (at_ne_jmp _))
        (sysInitSites_zero _ (by simp [jmp_ne_at]))
    | That =>
      simp only [Translator.translate, Translator.basic_push, MemorySegment.seg_ptr,
        Option.pure_def, Option.bind_eq_bind, Option.some_bind] at h
      exact step_of_const h (head_ne_of_eq rfl (at_ne_jmp _))
        (sysInitSites_zero _ (by simp [jmp_ne_at]))
    | Constant =>
      simp only [Translator.translate, Translator.push_const] at h
      exact step_of_const h (head_ne_of_eq rfl (at_ne_jmp _))
        (sysInitSites_zero _ (by simp [jmp_ne_at]))
    | Static =>
      simp only [Translator.translate, Translator.push_static] at h
      exact step_of_const h (head_ne_of_eq rfl (at2_ne_jmp _ _))
        (sysInitSites_zero _ (by simp [jmp_ne_at2]))
    | Pointer =>
      simp only [Translator.translate, Translator.push_ptr] at h
      match idx with
      | 0 =>
        simp only [MemorySegment.seg_ptr, Option.pure_def, Option.bind_eq_bind,
          Option.some_bind] at h
        exact step_of_const h (head_ne_of_eq rfl (by decide))
          (sysInitSites_zero _ (by simp [jmp_ne_at]))
      | 1 =>
        simp only [MemorySegment.seg_ptr, Option.pure_def, Option.bind_eq_bind,
          Option.some_bind] at h
        exact step_of_const h (head_ne_of_eq rfl (by decide))
          (sysInitSites_zero _ (by simp [jmp_ne_at]))
      | (m + 2) =>
        simp only [Option.pure_def, Option.bind_eq_bind, Option.none_bind] at h
        exact Option.noConfusion h
    | Temp =>
      simp only [Translator.translate, Translator.push_temp] at h
      simp only [Option.pure_def, Option.bind_eq_bind, Option.bind_eq_some] at h
      obtain ⟨m, _, h2⟩ := h
      exact step_of_const h2 (head_ne_of_eq rfl (at_ne_jmp _))
        (sysInitSites_zero _ (by simp [jmp_ne_at]))
  | Label label =>
    simp only [Translator.translate, Translator.label_fn] at h
    obtain ⟨ha, hn, hc, hs⟩ := add_instr_some h
    exact ⟨_, ha, hn, hc.ge, hs, head_ne_of_eq rfl (paren_ne_jmp _), sysInitSites_single _⟩
  | Goto label =>
    simp only [Translator.translate, Translator.goto] at h
    refine step_of_const h (head_ne_of_eq rfl (at_ne_jmp _)) ?_
    rw [sysInitSites_cons2, sysInitSites_single]
    simp [at_eq_sysinit, sysJumpTarget]
  | IfGoto label =>
    simp only [Translator.translate, Translator.if_goto] at h
    exact step_of_const h (head_ne_of_eq rfl (by decide))
      (sysInitSites_zero _ (by simp [jmp_ne_at]))
  | Function name num_local_vars =>
    simp only [Translator.translate, Translator.function] at h
    simp only [Option.pure_def, Option.bind_eq_bind, Option.bind_eq_some] at h
    obtain ⟨t1, h1, h2⟩ := h
    obtain ⟨ha1, hn1, hc1, hs1⟩ := add_instr_some h1
    obtain ⟨ha2, hn2, hc2, hs2⟩ := const_instr_to_vec_some h2
    refine ⟨("(" ++ name ++ ")") ::
      List.flatten (List.replicate num_local_vars ["@SP", "M=M+1", "A=M-1", "M=0"]),
      ?_, by omega, (hc2.trans hc1).ge, hs2.trans hs1,
      head_ne_of_eq rfl (paren_ne_jmp _), ?_⟩
    · rw [ha2, ha1, List.append_assoc, List.singleton_append]
    · refine sysInitSites_zero _ ?_
      intro hm
      rcases List.mem_cons.mp hm with hm | hm
      · exact jmp_ne_paren _ hm
      · have := mem_flatten_replicate4 _ _ hm
        simp at this
  | Call name num_args =>
    simp only [Translator.translate, Translator.call] at h
    simp only [Option.pure_def, Option.bind_eq_bind, Option.bind_eq_some,
      Option.some.injEq] at h
    obtain ⟨ao, hao, t1, h1, c, hcu, ht'⟩ := h
    obtain ⟨ha1, hn1, hc1, hs1⟩ := const_instr_to_vec_some h1
    have hcval : c = t1.call_counter + 1 := by
      rw [u16add] at hcu
      split at hcu
      · rw [Option.some.injEq] at hcu
        omega
      · exact Option.noConfusion hcu
    subst ht'
    refine ⟨["@" ++ (name ++ "$ret." ++ Nat.repr t.call_counter), "D=A", "@SP", "M=M+1", "A=M-1", "M=D",
      "@LCL", "D=M", "@SP", "M=M+1", "A=M-1", "M=D",
      "@ARG", "D=M", "@SP", "M=M+1", "A=M-1", "M=D",
      "@THIS", "D=M", "@SP", "M=M+1", "A=M-1", "M=D",
      "@THAT", "D=M", "@SP", "M=M+1", "A=M-1", "M=D",
      "@" ++ Nat.repr ao, "D=A", "@SP", "D=M-D", "@ARG", "M=D",
      "@SP", "D=M", "@LCL", "M=D",
      "@" ++ name, "0;JMP",
      "(" ++ (name ++ "$ret." ++ Nat.repr t.call_counter) ++ ")"], ?_, ?_, ?_, ?_, ?_, ?_⟩
    · show t1.asm = t.asm ++ _
      exact ha1
    · show t.next_instr ≤ t1.next_instr
      exact hn1
    · show t.call_counter ≤ c
      omega
    · show t1.static_base = t.static_base
      exact hs1
    · exact head_ne_of_eq rfl (at_ne_jmp _)
    · simp only [sysInitSites_cons2, sysInitSites_single]
      simp [at_eq_sysinit, sysJumpTarget, paren_ne_jmp, jmp_ne_paren]

/-! ## Folding the step lemma over lines and units -/

/-- `Sys.init` call sites contributed by one input line. -/
def lineSysTarget (line : String) : Nat :=
  (parse_instruction line).elim 0 sysJumpTarget

def linesSysTarget : List String → Nat
  | [] => 0
  | line :: rest => lineSysTarget line + linesSysTarget rest

def unitsSysTarget : List (String × List String) → Nat
  | [] => 0
  | u :: rest => linesSysTarget u.2 + unitsSysTarget rest

theorem translate_lines_props (lines : List String) :
    ∀ t t', translate_lines t lines = some t' →
    (∃ B, t'.asm = t.asm ++ B) ∧ t.next_instr ≤ t'.next_instr ∧
    t.call_counter ≤ t'.call_counter ∧ t'.static_base = t.static_base ∧
    sysInitSites t'.asm = sysInitSites t.asm + linesSysTarget lines := by
  induction lines with
  | nil =>
    intro t t' h
    rw [translate_lines, Option.some.injEq] at h
    subst h
    exact ⟨⟨[], by simp⟩, le_refl _, le_refl _, rfl, by rw [linesSysTarget]; omega⟩
  | cons line rest ih =>
    intro t t' h
    rw [translate_lines] at h
    simp only [Option.pure_def, Option.bind_eq_bind, Option.bind_eq_some] at h
    obtain ⟨i, hi, t1, h1, h2⟩ := h
    obtain ⟨B, hB, hn1, hc1, hs1, hhead, hcount⟩ := translate_step i h1
    obtain ⟨⟨B2, hB2⟩, hn2, hc2, hs2, hsites⟩ := ih t1 t' h2
    refine ⟨⟨B ++ B2, by rw [hB2, hB, List.append_assoc]⟩, by omega, by omega,
      hs2.trans hs1, ?_⟩
    have hline : lineSysTarget line = sysJumpTarget i := by
      rw [lineSysTarget, hi]
      rfl
    rw [hsites, hB, sysInitSites_append _ _ hhead, hcount, linesSysTarget, hline]
    omega

theorem translate_units_props (units : List (String × List String)) :
    ∀ t t', translate_units t units = some t' →
    (∃ B, t'.asm = t.asm ++ B) ∧ t.next_instr ≤ t'.next_instr ∧
    t.call_counter ≤ t'.call_counter ∧
    sysInitSites t'.asm = sysInitSites t.asm + unitsSysTarget units := by
  induction units with
  | nil =>
    intro t t' h
    rw [translate_units, Option.some.injEq] at h
    subst h
    exact ⟨⟨[], by simp⟩, le_refl _, le_refl _, by rw [unitsSysTarget]; omega⟩
  | cons u rest ih =>
    intro t t' h
    rw [translate_units] at h
    simp only [Option.pure_def, Option.bind_eq_bind, Option.bind_eq_some] at h
    obtain ⟨t1, h1, h2⟩ := h
    obtain ⟨⟨B, hB⟩, hn1, hc1, hs1, hsites1⟩ := translate_lines_props u.2 _ _ h1
    obtain ⟨⟨B2, hB2⟩, hn2, hc2, hsites2⟩ := ih t1 t' h2
    simp only [] at hB hn1 hc1 hsites1
    refine ⟨⟨B ++ B2, by rw [hB2, hB, List.append_assoc]⟩, by omega, by omega, ?_⟩
    rw [hsites2, hsites1, unitsSysTarget]
    omega

/-! ## Characterization of `logical_comp` -/

theorem logical_comp_char (t : Translator) (jmp : String)
    (hb : t.next_instr + 11 ≤ 65535) :
    t.logical_comp jmp =
      some { t with asm := t.asm ++ compBlock jmp t.next_instr, next_instr := t.next_instr + 11 } := by
  rw [Translator.logical_comp]
  simp only [Option.pure_def, Option.bind_eq_bind]
  rw [const_instr_to_vec_char ["@SP", "AM=M-1", "D=M", "A=A-1", "D=M-D", "M=-1"] t (by omega)
    (by intro l hl; fin_cases hl <;> decide)]
  have h6 : instrCount ["@SP", "AM=M-1", "D=M", "A=A-1", "D=M-D", "M=-1"] = 6 := by decide
  rw [h6, if_pos (show t.next_instr + 6 ≤ 65535 by omega), Option.some_bind]
  simp only []
  rw [const_instr_to_vec_char
    ["@" ++ Nat.repr (t.next_instr + 6 + 5), "D;" ++ jmp, "@SP", "A=M-1", "M=0"] _
    (show t.next_instr + 6 ≤ 65535 by omega)
    (by intro l hl; fin_cases hl <;> first | decide | exact at_ne_nil _ | exact dsemi_ne_nil _)]
  have h5 : instrCount ["@" ++ Nat.repr (t.next_instr + 6 + 5), "D;" ++ jmp, "@SP", "A=M-1", "M=0"] = 5 := by
    simp only [instrCount, at_head, dsemi_head]
    decide
  rw [h5]
  simp only []
  rw [if_pos (show t.next_instr + 6 + 5 ≤ 65535 by omega)]
  have harith : t.next_instr + 6 + 5 = t.next_instr + 11 := by omega
  rw [harith, List.append_assoc]
  rfl

/-! ## Characterization of `call` -/

theorem call_char (t : Translator) (name : String) (num_args : Nat)
    (hargs : 5 + num_args ≤ 65535) (hnext : t.next_instr + 42 ≤ 65535)
    (hcc : t.call_counter + 1 ≤ 65535) :
    t.call name num_args =
      some { t with asm := t.asm ++ callBlock name num_args t.call_counter, next_instr := t.next_instr + 42, call_counter := t.call_counter + 1 } := by
  simp only [Translator.call, Option.pure_def, Option.bind_eq_bind]
  rw [u16add, if_pos hargs, Option.some_bind]
  rw [const_instr_to_vec_char
    ["@" ++ (name ++ "$ret." ++ Nat.repr t.call_counter), "D=A", "@SP", "M=M+1", "A=M-1", "M=D",
     "@LCL", "D=M", "@SP", "M=M+1", "A=M-1", "M=D",
     "@ARG", "D=M", "@SP", "M=M+1", "A=M-1", "M=D",
     "@THIS", "D=M", "@SP", "M=M+1", "A=M-1", "M=D",
     "@THAT", "D=M", "@SP", "M=M+1", "A=M-1", "M=D",
     "@" ++ Nat.repr (5 + num_args), "D=A", "@SP", "D=M-D", "@ARG", "M=D",
     "@SP", "D=M", "@LCL", "M=D",
     "@" ++ name, "0;JMP",
     "(" ++ (name ++ "$ret." ++ Nat.repr t.call_counter) ++ ")"] t (by omega)
    (by intro l hl; fin_cases hl <;>
      first | decide | exact at_ne_nil _ | exact paren_ne_nil _)]
  have hcount : instrCount
      ["@" ++ (name ++ "$ret." ++ Nat.repr t.call_counter), "D=A", "@SP", "M=M+1", "A=M-1", "M=D",
       "@LCL", "D=M", "@SP", "M=M+1", "A=M-1", "M=D",
       "@ARG", "D=M", "@SP", "M=M+1", "A=M-1", "M=D",
       "@THIS", "D=M", "@SP", "M=M+1", "A=M-1", "M=D",
       "@THAT", "D=M", "@SP", "M=M+1", "A=M-1", "M=D",
       "@" ++ Nat.repr (5 + num_args), "D=A", "@SP", "D=M-D", "@ARG", "M=D",
       "@SP", "D=M", "@LCL", "M=D",
       "@" ++ name, "0;JMP",
       "(" ++ (name ++ "$ret." ++ Nat.repr t.call_counter) ++ ")"] = 42 := by
    simp only [instrCount, at_head, paren_head]
    decide
  rw [hcount, if_pos (show t.next_instr + 42 ≤ 65535 by omega), Option.some_bind]
  simp only []
  rw [u16add, if_pos (show t.call_counter + 1 ≤ 65535 from hcc), Option.some_bind]
  rfl

/-! ## Further helper characterizations -/

theorem add_instr_success_iff {t t' : Translator} {instr : String}
    (h : t.add_instr instr = some t') :
    t'.asm = t.asm ++ [instr] ∧
    (t'.next_instr = t.next_instr + 1 ↔ ¬ instr.data.head? = some '(') ∧
    (instr.data.head? = some '(' → t'.next_instr = t.next_instr) := by
  rw [Translator.add_instr] at h
  split at h
  · exact Option.noConfusion h
  · rename_i c heq
    split at h
    · rename_i hc
      subst hc
      rw [Option.some.injEq] at h
      subst h
      refine ⟨rfl, ?_, fun _ => rfl⟩
      constructor
      · intro habs
        exact absurd (show t.next_instr = t.next_instr + 1 from habs) (by omega)
      · intro hne
        exact absurd heq hne
    · rename_i hc
      rw [u16add] at h
      split at h
      · simp only [Option.map_some', Option.some.injEq] at h
        subst h
        refine ⟨rfl, ?_, ?_⟩
        · constructor
          · intro _ hparen
            rw [heq, Option.some.injEq] at hparen
            exact hc hparen
          · intro _
            rfl
        · intro hparen
          rw [heq, Option.some.injEq] at hparen
          exact absurd hparen hc
      · simp only [Option.map_none'] at h
        exact Option.noConfusion h

theorem add_instr_fail {t : Translator} {instr : String} {c : Char}
    (hb : instr.data.head? = some c) (hc : c ≠ '(') (h : t.next_instr = 65535) :
    t.add_instr instr = none := by
  rw [Translator.add_instr, hb]
  simp only []
  rw [if_neg hc, u16add]
  rw [if_neg (show ¬ (t.next_instr + 1 ≤ 65535) by omega)]
  rfl

theorem label_fn_char (t : Translator) (label : String) :
    t.label_fn label = some { t with asm := t.asm ++ ["(" ++ label ++ ")"] } := by
  rw [Translator.label_fn, Translator.add_instr, paren_head]
  simp

theorem pop_ptr_char0 (t : Translator) (hb : t.next_instr + 5 ≤ 65535) :
    t.pop_ptr 0 = some { t with asm := t.asm ++ ["@SP", "AM=M-1", "D=M", "@THIS", "M=D"], next_instr := t.next_instr + 5 } := by
  simp only [Translator.pop_ptr, MemorySegment.seg_ptr, Option.pure_def, Option.bind_eq_bind,
    Option.some_bind]
  rw [const_instr_to_vec_char _ t (by omega) (by intro l hl; fin_cases hl <;> decide)]
  have hc : instrCount ["@SP", "AM=M-1", "D=M", "@" ++ "THIS", "M=D"] = 5 := by decide
  rw [hc, if_pos (by omega)]
  rfl

theorem pop_ptr_char1 (t : Translator) (hb : t.next_instr + 5 ≤ 65535) :
    t.pop_ptr 1 = some { t with asm := t.asm ++ ["@SP", "AM=M-1", "D=M", "@THAT", "M=D"], next_instr := t.next_instr + 5 } := by
  simp only [Translator.pop_ptr, MemorySegment.seg_ptr, Option.pure_def, Option.bind_eq_bind,
    Option.some_bind]
  rw [const_instr_to_vec_char _ t (by omega) (by intro l hl; fin_cases hl <;> decide)]
  have hc : instrCount ["@SP", "AM=M-1", "D=M", "@" ++ "THAT", "M=D"] = 5 := by decide
  rw [hc, if_pos (by omega)]
  rfl

theorem pop_ptr_fail (t : Translator) (idx : Nat) (h : 2 ≤ idx) : t.pop_ptr idx = none := by
  obtain ⟨m, rfl⟩ : ∃ m, idx = m + 2 := ⟨idx - 2, by omega⟩
  rfl

theorem push_ptr_char0 (t : Translator) (hb : t.next_instr + 6 ≤ 65535) :
    t.push_ptr 0 = some { t with asm := t.asm ++ ["@THIS", "D=M", "@SP", "M=M+1", "A=M-1", "M=D"], next_instr := t.next_instr + 6 } := by
  simp only [Translator.push_ptr, MemorySegment.seg_ptr, Option.pure_def, Option.bind_eq_bind,
    Option.some_bind]
  rw [const_instr_to_vec_char _ t (by omega) (by intro l hl; fin_cases hl <;> decide)]
  have hc : instrCount ["@" ++ "THIS", "D=M", "@SP", "M=M+1", "A=M-1", "M=D"] = 6 := by decide
  rw [hc, if_pos (by omega)]
  rfl

theorem push_ptr_char1 (t : Translator) (hb : t.next_instr + 6 ≤ 65535) :
    t.push_ptr 1 = some { t with asm := t.asm ++ ["@THAT", "D=M", "@SP", "M=M+1", "A=M-1", "M=D"], next_instr := t.next_instr + 6 } := by
  simp only [Translator.push_ptr, MemorySegment.seg_ptr, Option.pure_def, Option.bind_eq_bind,
    Option.some_bind]
  rw [const_instr_to_vec_char _ t (by omega) (by intro l hl; fin_cases hl <;> decide)]
  have hc : instrCount ["@" ++ "THAT", "D=M", "@SP", "M=M+1", "A=M-1", "M=D"] = 6 := by decide
  rw [hc, if_pos (by omega)]
  rfl

theorem push_ptr_fail (t : Translator) (idx : Nat) (h : 2 ≤ idx) : t.push_ptr idx = none := by
  obtain ⟨m, rfl⟩ : ∃ m, idx = m + 2 := ⟨idx - 2, by omega⟩
  rfl

theorem pop_temp_fail (t : Translator) (idx : Nat) (h : 65535 < 5 + idx) :
    t.pop_temp idx = none := by
  simp only [Translator.pop_temp, TEMP_OFFSET, u16add, Option.pure_def, Option.bind_eq_bind]
  rw [if_neg (show ¬ (5 + idx ≤ 65535) by omega)]
  rfl

theorem push_temp_fail (t : Translator) (idx : Nat) (h : 65535 < 5 + idx) :
    t.push_temp idx = none := by
  simp only [Translator.push_temp, TEMP_OFFSET, u16add, Option.pure_def, Option.bind_eq_bind]
  rw [if_neg (show ¬ (5 + idx ≤ 65535) by omega)]
  rfl

theorem pop_temp_char (t : Translator) (idx : Nat) (hidx : 5 + idx ≤ 65535)
    (hb : t.next_instr + 5 ≤ 65535) :
    t.pop_temp idx = some { t with asm := t.asm ++ ["@SP", "AM=M-1", "D=M", "@" ++ Nat.repr (5 + idx), "M=D"], next_instr := t.next_instr + 5 } := by
  simp only [Translator.pop_temp, TEMP_OFFSET, u16add, Option.pure_def, Option.bind_eq_bind]
  rw [if_pos hidx, Option.some_bind]
  rw [const_instr_to_vec_char _ t (by omega)
    (by intro l hl; fin_cases hl <;> first | decide | exact at_ne_nil _)]
  have hc : instrCount ["@SP", "AM=M-1", "D=M", "@" ++ Nat.repr (5 + idx), "M=D"] = 5 := by
    simp only [instrCount, at_head]
    decide
  rw [hc, if_pos (by omega)]

theorem call_some_counter {t t' : Translator} {name : String} {num_args : Nat}
    (h : t.call name num_args = some t') :
    t'.call_counter = t.call_counter + 1 ∧ t'.call_counter ≤ 65535 := by
  simp only [Translator.call, Option.pure_def, Option.bind_eq_bind, Option.bind_eq_some,
    Option.some.injEq] at h
  obtain ⟨ao, hao, t1, h1, c, hcu, ht'⟩ := h
  obtain ⟨_, _, hc1, _⟩ := const_instr_to_vec_some h1
  rw [u16add] at hcu
  split at hcu
  · rw [Option.some.injEq] at hcu
    subst ht'
    refine ⟨?_, ?_⟩
    · show c = t.call_counter + 1
      omega
    · show c ≤ 65535
      omega
  · exact Option.noConfusion hcu

theorem call_fail_counter (t : Translator) (name : String) (num_args : Nat)
    (h : t.call_counter = 65535) : t.call name num_args = none := by
  cases hcall : t.call name num_args with
  | none => rfl
  | some t' =>
    exfalso
    obtain ⟨h1, h2⟩ := call_some_counter hcall
    omega

/-! ## Injectivity of the synthesized return-address labels -/

theorem takeWhile_all_append (p : Char → Bool) (A : List Char) (a : Char) (B : List Char)
    (hA : ∀ x ∈ A, p x = true) (ha : p a = false) :
    (A ++ a :: B).takeWhile p = A := by
  induction A with
  | nil =>
    rw [List.nil_append, List.takeWhile_cons, ha]
    simp
  | cons x A ih =>
    rw [List.cons_append, List.takeWhile_cons, hA x (List.mem_cons_self _ _)]
    rw [ih (fun y hy => hA y (List.mem_cons_of_mem _ hy))]
    simp

/-- The characters after the last `'$'` of a string's character list. -/
def afterLastDollar (l : List Char) : List Char :=
  (l.reverse.takeWhile (fun c => c ≠ '$')).reverse

theorem afterLastDollar_append (x y : List Char) (hy : ∀ c ∈ y, c ≠ '$') :
    afterLastDollar (x ++ '$' :: y) = y := by
  rw [afterLastDollar, List.reverse_append, List.reverse_cons, List.append_assoc,
    List.singleton_append]
  rw [takeWhile_all_append _ _ '$' _ ?hA ?ha]
  · exact List.reverse_reverse y
  case hA =>
    intro c hc
    rw [List.mem_reverse] at hc
    simp only [ne_eq, decide_not]
    simp [hy c hc]
  case ha =>
    simp

theorem retLabel_data (n : String) (c : Nat) :
    (retLabel n c).data = n.data ++ '$' :: ('r' :: 'e' :: 't' :: '.' :: digitsOf c) := by
  rw [retLabel, String.data_append, String.data_append, repr_data]
  have hd : ("$ret.").data = ['$', 'r', 'e', 't', '.'] := rfl
  rw [hd]
  simp

theorem retLabel_counter_inj {n1 n2 : String} {c1 c2 : Nat}
    (h : retLabel n1 c1 = retLabel n2 c2) : c1 = c2 := by
  have hd := congrArg String.data h
  rw [retLabel_data, retLabel_data] at hd
  have hy : ∀ (c : Nat) (x : Char), x ∈ 'r' :: 'e' :: 't' :: '.' :: digitsOf c → x ≠ '$' := by
    intro c x hx
    rcases List.mem_cons.mp hx with rfl | hx
    · decide
    rcases List.mem_cons.mp hx with rfl | hx
    · decide
    rcases List.mem_cons.mp hx with rfl | hx
    · decide
    rcases List.mem_cons.mp hx with rfl | hx
    · decide
    intro hdol
    subst hdol
    exact digitsOf_mem_ne hx (by decide)
  have h1 := afterLastDollar_append n1.data _ (hy c1)
  have h2 := afterLastDollar_append n2.data _ (hy c2)
  have heq : 'r' :: 'e' :: 't' :: '.' :: digitsOf c1 = 'r' :: 'e' :: 't' :: '.' :: digitsOf c2 := by
    rw [← h1, ← h2, hd]
  have hdig : digitsOf c1 = digitsOf c2 := by
    injection heq with _ heq
    injection heq with _ heq
    injection heq with _ heq
    injection heq with _ heq
  have hv := congrArg decimalVal hdig
  rwa [decimalVal_digitsOf, decimalVal_digitsOf] at hv

theorem retLabel_ne {n1 n2 : String} {c1 c2 : Nat} (h : c1 ≠ c2) :
    retLabel n1 c1 ≠ retLabel n2 c2 := fun he => h (retLabel_counter_inj he)

theorem translate_call_counter {t t' : Translator} {name : String} {num_args : Nat}
    (h : t.translate (ParsedVMInstruction.Call name num_args) = some t') :
    t'.call_counter = t.call_counter + 1 := by
  simp only [Translator.translate] at h
  exact (call_some_counter h).1

/-! ## Parser-side helpers -/

theorem pop_constant_toks (rest : List String) :
    parse_instruction_toks ("pop" :: "constant" :: rest) = none := by
  cases rest with
  | nil => rfl
  | cons t2 rest => rfl

theorem splitOnSpaceAux_sep (l1 : List Char) :
    ∀ (acc l2 : List Char), ' ' ∉ l1 →
    splitOnSpaceAux (l1 ++ ' ' :: l2) acc =
      String.mk (acc.reverse ++ l1) :: splitOnSpaceAux l2 [] := by
  induction l1 with
  | nil =>
    intro acc l2 _
    rw [List.nil_append, splitOnSpaceAux, if_pos rfl]
    simp
  | cons c l1 ih =>
    intro acc l2 h
    have hcne : ¬ (c = ' ') := by
      intro hc
      subst hc
      exact h (List.mem_cons_self _ _)
    rw [List.cons_append, splitOnSpaceAux, if_neg hcne]
    rw [ih (c :: acc) l2 (fun hm => h (List.mem_cons_of_mem _ hm))]
    simp

theorem splitOnSpaceAux_no_sep (l : List Char) :
    ∀ acc, ' ' ∉ l → splitOnSpaceAux l acc = [String.mk (acc.reverse ++ l)] := by
  induction l with
  | nil =>
    intro acc _
    rw [splitOnSpaceAux]
    simp
  | cons c l ih =>
    intro acc h
    have hcne : ¬ (c = ' ') := by
      intro hc
      subst hc
      exact h (List.mem_cons_self _ _)
    rw [splitOnSpaceAux, if_neg hcne]
    rw [ih (c :: acc) (fun hm => h (List.mem_cons_of_mem _ hm))]
    simp

theorem splitOnSpace_sep (l1 l2 : List Char) (h : ' ' ∉ l1) :
    splitOnSpace (l1 ++ ' ' :: l2) = String.mk l1 :: splitOnSpace l2 := by
  rw [splitOnSpace, splitOnSpaceAux_sep l1 [] l2 h]
  rfl

theorem splitOnSpace_no_sep (l : List Char) (h : ' ' ∉ l) :
    splitOnSpace l = [String.mk l] := by
  rw [splitOnSpace, splitOnSpaceAux_no_sep l [] h]
  rfl

/-! ## Claim theorems -/

/-- C1: translating `Eq`, `Gt` or `Lt` emits the fixed comparison sequence
`compBlock`: pop two values, compute their difference, write `-1`
unconditionally to the new top of stack, then a conditional jump over the
corrective `M=0` write.  The block has 11 counted instructions, so its first
instruction occupies address `next_instr` and the first instruction after it
address `next_instr + 11`.  The jump-address line is the 7th line (index 6);
when it is emitted the counter has advanced by the 6 preceding instructions,
and its operand equals that emitted count plus 5 — `(next_instr + 6) + 5 =
next_instr + 11`, the address of the first instruction after the sequence,
5 instructions past the point where the two-line jump (address line plus
conditional-jump line) begins. -/
theorem claim_C1_comparison_skip_target (t : Translator) (hb : t.next_instr + 11 ≤ 65535) :
    (t.translate ParsedVMInstruction.Eq =
      some { t with asm := t.asm ++ compBlock "JEQ" t.next_instr, next_instr := t.next_instr + 11 }) ∧
    (t.translate ParsedVMInstruction.Gt =
      some { t with asm := t.asm ++ compBlock "JGT" t.next_instr, next_instr := t.next_instr + 11 }) ∧
    (t.translate ParsedVMInstruction.Lt =
      some { t with asm := t.asm ++ compBlock "JLT" t.next_instr, next_instr := t.next_instr + 11 }) ∧
    (∀ jmp, instrCount (compBlock jmp t.next_instr) = 11) ∧
    (∀ jmp, (compBlock jmp t.next_instr)[6]? = some ("@" ++ Nat.repr ((t.next_instr + 6) + 5))) := by
  refine ⟨?_, ?_, ?_, ?_, ?_⟩
  · simp only [Translator.translate]
    exact logical_comp_char t "JEQ" hb
  · simp only [Translator.translate]
    exact logical_comp_char t "JGT" hb
  · simp only [Translator.translate]
    exact logical_comp_char t "JLT" hb
  · intro jmp
    simp only [compBlock, instrCount, at_head, dsemi_head]
    decide
  · intro jmp
    have e : t.next_instr + 6 + 5 = t.next_instr + 11 := by omega
    rw [e]
    rfl

theorem claim_C1_witness :
    (Translator.new "M").translate ParsedVMInstruction.Eq =
      some { Translator.new "M" with
        asm := (Translator.new "M").asm ++ compBlock "JEQ" (Translator.new "M").next_instr,
        next_instr := (Translator.new "M").next_instr + 11 } :=
  (claim_C1_comparison_skip_target (Translator.new "M") (by decide)).1

/-- C2: translating `Call name num_args` emits exactly `callBlock`: push of
the synthesized return-address label `name$ret.<call_counter>` as a literal;
pushes of the caller's `LCL`, `ARG`, `THIS`, `THAT` pointer values in that
order; `ARG := SP - (5 + num_args)`; `LCL := SP`; an unconditional jump to
`name`; and the return-address label-definition line immediately after the
jump.  The call counter is incremented by exactly one, regardless of
`name`. -/
theorem claim_C2_call_sequence (t : Translator) (name : String) (num_args : Nat)
    (hargs : 5 + num_args ≤ 65535) (hnext : t.next_instr + 42 ≤ 65535)
    (hcc : t.call_counter + 1 ≤ 65535) :
    t.translate (ParsedVMInstruction.Call name num_args) =
      some { t with asm := t.asm ++ callBlock name num_args t.call_counter, next_instr := t.next_instr + 42, call_counter := t.call_counter + 1 } := by
  simp only [Translator.translate]
  exact call_char t name num_args hargs hnext hcc

theorem claim_C2_witness :
    (Translator.new "M").translate (ParsedVMInstruction.Call "Foo.bar" 2) =
      some { Translator.new "M" with
        asm := (Translator.new "M").asm ++ callBlock "Foo.bar" 2 (Translator.new "M").call_counter,
        next_instr := (Translator.new "M").next_instr + 42,
        call_counter := (Translator.new "M").call_counter + 1 } :=
  claim_C2_call_sequence (Translator.new "M") "Foo.bar" 2 (by decide) (by decide) (by decide)

/-- C3: two `Call` instructions translated by the same generator instance —
in particular two calls to the same function name separated by any
successfully translated instruction stream — synthesize different
return-address labels, because each call increments the call counter by one,
no translation ever decreases it, and `retLabel` is injective in the counter
for any function names. -/
theorem claim_C3_ret_labels_unique :
    (∀ (t t1 t2 t3 : Translator) (mid : List String) (name : String) (n1 n2 : Nat),
      t.translate (ParsedVMInstruction.Call name n1) = some t1 →
      translate_lines t1 mid = some t2 →
      t2.translate (ParsedVMInstruction.Call name n2) = some t3 →
      retLabel name t.call_counter ≠ retLabel name t2.call_counter) ∧
    (∀ (n1 : String) (c1 : Nat) (n2 : String) (c2 : Nat),
      c1 ≠ c2 → retLabel n1 c1 ≠ retLabel n2 c2) ∧
    (∀ (t t' : Translator) (i : ParsedVMInstruction),
      t.translate i = some t' → t.call_counter ≤ t'.call_counter) ∧
    (∀ (t t' : Translator) (name : String) (num_args : Nat),
      t.call name num_args = some t' → t'.call_counter = t.call_counter + 1) := by
  refine ⟨?_, ?_, ?_, ?_⟩
  · intro t t1 t2 t3 mid name n1 n2 h1 h2 _
    have hb1 := translate_call_counter h1
    have hmono := (translate_lines_props mid t1 t2 h2).2.2.1
    exact retLabel_ne (by omega)
  · intro n1 c1 n2 c2 h
    exact retLabel_ne h
  · intro t t' i h
    obtain ⟨B, _, _, hc, _, _, _⟩ := translate_step i h
    exact hc
  · intro t t' name num_args h
    exact (call_some_counter h).1

theorem claim_C3_witness : retLabel "Foo.bar" 0 ≠ retLabel "Foo.bar" 1 :=
  claim_C3_ret_labels_unique.2.1 "Foo.bar" 0 "Foo.bar" 1 (by decide)

/-- C4 (counterexample to the claim as stated): a directory whose single
unit itself contains `call Sys.init 0` translates successfully to an output
with two `Sys.init` call sites, not exactly one. -/
theorem claim_C4_counterexample :
    (translate_directory [("Foo", ["call Sys.init 0"])]).map sysInitSites = some 2 ∧
    ¬ ((translate_directory [("Foo", ["call Sys.init 0"])]).map sysInitSites = some 1) := by
  refine ⟨by decide, by decide⟩

/-- C4 (amended): every successful directory-level translation begins with
the bootstrap `bootstrapAsm` — stack-pointer initialization followed by the
`Call "Sys.init" 0` sequence synthesized exactly as an ordinary call at call
counter 0 — emitted exactly once, before any translation unit's
instructions; the bootstrap contains exactly one `Sys.init` call site, and
the whole output contains exactly `1 + unitsSysTarget units` such sites,
where `unitsSysTarget` counts the unit-level `call`/`goto` instructions that
themselves target `Sys.init` (so exactly one when no unit targets
`Sys.init`). -/
theorem claim_C4_bootstrap (units : List (String × List String)) (out : List String)
    (h : translate_directory units = some out) :
    (∃ rest, out = bootstrapAsm ++ rest) ∧
    sysInitSites bootstrapAsm = 1 ∧
    sysInitSites out = 1 + unitsSysTarget units := by
  rw [translate_directory] at h
  simp only [Option.pure_def, Option.bind_eq_bind, Option.bind_eq_some, Option.some.injEq] at h
  obtain ⟨tB, hB, tU, hU, hout⟩ := h
  have hBc : Translator.set_bootstrap (Translator.new "") =
      some (⟨"", bootstrapAsm, 46, 1⟩ : Translator) := by decide
  rw [hBc, Option.some.injEq] at hB
  subst hB
  obtain ⟨⟨B2, hasm⟩, _, _, hsites⟩ := translate_units_props units _ _ hU
  simp only [] at hasm hsites
  subst hout
  have h1 : sysInitSites bootstrapAsm = 1 := by decide
  refine ⟨⟨B2, hasm⟩, h1, ?_⟩
  rw [hsites, h1]

theorem claim_C4_witness :
    sysInitSites (bootstrapAsm ++ ["@3", "D=A", "@SP", "M=M+1", "A=M-1", "M=D"]) =
      1 + unitsSysTarget [("Main", ["push constant 3"])] :=
  (claim_C4_bootstrap [("Main", ["push constant 3"])]
    (bootstrapAsm ++ ["@3", "D=A", "@SP", "M=M+1", "A=M-1", "M=D"]) (by decide)).2.2

/-- C5: every successful `add_instr` appends exactly its line and advances
`next_instr` by one exactly when the line does not begin with `(`;
translating `Label name` appends exactly the single line `(name)` and leaves
the counter unchanged; every successful translation only appends to the
output, and neither `next_instr` nor `call_counter` ever decreases. -/
theorem claim_C5_append_only_counters :
    (∀ (t t' : Translator) (instr : String), t.add_instr instr = some t' →
      t'.asm = t.asm ++ [instr] ∧
      (t'.next_instr = t.next_instr + 1 ↔ ¬ instr.data.head? = some '(') ∧
      (instr.data.head? = some '(' → t'.next_instr = t.next_instr)) ∧
    (∀ (t : Translator) (label : String),
      t.translate (ParsedVMInstruction.Label label) =
        some { t with asm := t.asm ++ ["(" ++ label ++ ")"] }) ∧
    (∀ (t t' : Translator) (i : ParsedVMInstruction), t.translate i = some t' →
      (∃ B, t'.asm = t.asm ++ B) ∧ t.next_instr ≤ t'.next_instr ∧
      t.call_counter ≤ t'.call_counter) := by
  refine ⟨?_, ?_, ?_⟩
  · intro t t' instr h
    exact add_instr_success_iff h
  · intro t label
    simp only [Translator.translate]
    exact label_fn_char t label
  · intro t t' i h
    obtain ⟨B, hB, hn, hc, _, _, _⟩ := translate_step i h
    exact ⟨⟨B, hB⟩, hn, hc⟩

theorem claim_C5_witness :
    (Translator.new "M").call_counter ≤
      ({ static_base := "M", asm := ADD, next_instr := 5, call_counter := 0 } : Translator).call_counter :=
  (claim_C5_append_only_counters.2.2 (Translator.new "M")
    { static_base := "M", asm := ADD, next_instr := 5, call_counter := 0 }
    ParsedVMInstruction.Add (by decide)).2.2

/-- C6: the parser rejects `constant` as a pop target: for every token after
`pop constant` the token-level classifier fails, the parser never produces a
`Pop Constant` instruction from any token list, and a string line
`pop constant <tok>` fails for every index token. -/
theorem claim_C6_pop_constant_rejected :
    (∀ rest, parse_instruction_toks ("pop" :: "constant" :: rest) = none) ∧
    (∀ toks instr, parse_instruction_toks toks = some instr →
      ∀ idx, instr ≠ ParsedVMInstruction.Pop MemorySegment.Constant idx) ∧
    (∀ idxTok : String, parse_instruction ("pop constant " ++ idxTok) = none) := by
  refine ⟨pop_constant_toks, ?_, ?_⟩
  · intro toks instr h idx
    rw [parse_instruction_toks.eq_def] at h
    split at h <;> (try split at h) <;> (try split at h) <;> (try split at h)
    all_goals first
      | exact Option.noConfusion h
      | (rw [Option.some.injEq] at h; subst h; simp)
      | (rw [Option.map_eq_some'] at h; obtain ⟨v, hv1, hv2⟩ := h; subst hv2; simp)
  · intro idxTok
    rw [parse_instruction]
    have hdata : ("pop constant " ++ idxTok).data =
        ['p', 'o', 'p'] ++ ' ' :: (['c', 'o', 'n', 's', 't', 'a', 'n', 't'] ++ ' ' :: idxTok.data) := by
      rw [String.data_append]
      rfl
    rw [hdata, splitOnSpace_sep ['p', 'o', 'p'] _ (by decide),
      splitOnSpace_sep ['c', 'o', 'n', 's', 't', 'a', 'n', 't'] _ (by decide)]
    exact pop_constant_toks _

theorem claim_C6_witness :
    parse_instruction_toks ["pop", "constant", "7"] = none ∧
    ParsedVMInstruction.Add ≠ ParsedVMInstruction.Pop MemorySegment.Constant 7 ∧
    parse_instruction ("pop constant " ++ "7") = none :=
  ⟨claim_C6_pop_constant_rejected.1 ["7"],
   claim_C6_pop_constant_rejected.2.1 ["add"] ParsedVMInstruction.Add (by decide) 7,
   claim_C6_pop_constant_rejected.2.2 "7"⟩

/-- C7: push/pop on the `Pointer` segment with index 0 reads/writes the
`THIS` pointer cell directly and with index 1 the `THAT` cell, with no
indirection; every other index is a fatal error. -/
theorem claim_C7_pointer_segment (t : Translator) (idx : Nat) :
    (2 ≤ idx →
      t.translate (ParsedVMInstruction.Pop MemorySegment.Pointer idx) = none ∧
      t.translate (ParsedVMInstruction.Push MemorySegment.Pointer idx) = none) ∧
    (t.next_instr + 5 ≤ 65535 →
      t.translate (ParsedVMInstruction.Pop MemorySegment.Pointer 0) =
        some { t with asm := t.asm ++ ["@SP", "AM=M-1", "D=M", "@THIS", "M=D"], next_instr := t.next_instr + 5 } ∧
      t.translate (ParsedVMInstruction.Pop MemorySegment.Pointer 1) =
        some { t with asm := t.asm ++ ["@SP", "AM=M-1", "D=M", "@THAT", "M=D"], next_instr := t.next_instr + 5 }) ∧
    (t.next_instr + 6 ≤ 65535 →
      t.translate (ParsedVMInstruction.Push MemorySegment.Pointer 0) =
        some { t with asm := t.asm ++ ["@THIS", "D=M", "@SP", "M=M+1", "A=M-1", "M=D"], next_instr := t.next_instr + 6 } ∧
      t.translate (ParsedVMInstruction.Push MemorySegment.Pointer 1) =
        some { t with asm := t.asm ++ ["@THAT", "D=M", "@SP", "M=M+1", "A=M-1", "M=D"], next_instr := t.next_instr + 6 }) := by
  refine ⟨?_, ?_, ?_⟩
  · intro hidx
    constructor
    · simp only [Translator.translate]
      exact pop_ptr_fail t idx hidx
    · simp only [Translator.translate]
      exact push_ptr_fail t idx hidx
  · intro hb
    constructor
    · simp only [Translator.translate]
      exact pop_ptr_char0 t hb
    · simp only [Translator.translate]
      exact pop_ptr_char1 t hb
  · intro hb
    constructor
    · simp only [Translator.translate]
      exact push_ptr_char0 t hb
    · simp only [Translator.translate]
      exact push_ptr_char1 t hb

theorem claim_C7_witness :
    (Translator.new "M").translate (ParsedVMInstruction.Pop MemorySegment.Pointer 2) = none ∧
    (Translator.new "M").translate (ParsedVMInstruction.Push MemorySegment.Pointer 2) = none :=
  (claim_C7_pointer_segment (Translator.new "M") 2).1 (by decide)

/-- C8 (counterexample to the claim as stated): the parser splits on the
single-space separator only, so a line with a tab or two spaces between
tokens does not parse to the same instruction as its single-space form — it
fails instead. -/
theorem claim_C8_counterexample :
    ¬ (parse_instruction "push\tconstant 3" = parse_instruction "push constant 3") ∧
    parse_instruction "push constant 3" = some (ParsedVMInstruction.Push MemorySegment.Constant 3) ∧
    parse_instruction "push\tconstant 3" = none ∧
    parse_instruction "push  constant 3" = none := by
  refine ⟨by decide, by decide, by decide, by decide⟩

/-- C8 (amended): the parser splits the line at every single-space
character — not at general whitespace — and classifies the resulting token
list by its first token; a space-free token followed by one space splits off
exactly that token, and a space-free line is one single token. -/
theorem claim_C8_single_space_split :
    (∀ s : String, parse_instruction s = parse_instruction_toks (splitOnSpace s.data)) ∧
    (∀ l1 l2 : List Char, ' ' ∉ l1 →
      splitOnSpace (l1 ++ ' ' :: l2) = String.mk l1 :: splitOnSpace l2) ∧
    (∀ l : List Char, ' ' ∉ l → splitOnSpace l = [String.mk l]) :=
  ⟨fun _ => rfl, splitOnSpace_sep, splitOnSpace_no_sep⟩

theorem claim_C8_witness :
    splitOnSpace (['a'] ++ ' ' :: ['b']) = String.mk ['a'] :: splitOnSpace ['b'] :=
  claim_C8_single_space_split.2.1 ['a'] ['b'] (by decide)

/-- C9: the fixed `Return` sequence uses the absolute cells 7 and 8 as
scratch (frame base and saved return address, each written by an `@7`/`@8`
line followed by `M=D`); since `TEMP_OFFSET = 5`, `pop temp 2` and
`pop temp 3` address exactly those cells, so a `Return` overwrites the Temp
segment cells 2 and 3. -/
theorem claim_C9_return_clobbers_temp (t : Translator) (hb : t.next_instr + 44 ≤ 65535) :
    t.translate ParsedVMInstruction.Return =
      some { t with asm := t.asm ++ RETURN, next_instr := t.next_instr + 44 } ∧
    RETURN = RETURN.take 2 ++ ["@7", "M=D"] ++ RETURN.drop 4 ∧
    RETURN = RETURN.take 9 ++ ["@8", "M=D"] ++ RETURN.drop 11 ∧
    TEMP_OFFSET + 2 = 7 ∧ TEMP_OFFSET + 3 = 8 ∧
    (∀ u : Translator, u.next_instr + 5 ≤ 65535 →
      u.translate (ParsedVMInstruction.Pop MemorySegment.Temp 2) =
        some { u with asm := u.asm ++ ["@SP", "AM=M-1", "D=M", "@7", "M=D"], next_instr := u.next_instr + 5 } ∧
      u.translate (ParsedVMInstruction.Pop MemorySegment.Temp 3) =
        some { u with asm := u.asm ++ ["@SP", "AM=M-1", "D=M", "@8", "M=D"], next_instr := u.next_instr + 5 }) := by
  refine ⟨?_, by decide, by decide, by decide, by decide, ?_⟩
  · simp only [Translator.translate]
    rw [const_instr_to_vec_char RETURN t (by omega) (by intro l hl; fin_cases hl <;> decide)]
    have hc : instrCount RETURN = 44 := by decide
    rw [hc, if_pos (by omega)]
  · intro u hu
    constructor
    · simp only [Translator.translate]
      rw [pop_temp_char u 2 (by decide) hu]
      rw [show ("@" ++ Nat.repr (5 + 2) : String) = "@7" by decide]
    · simp only [Translator.translate]
      rw [pop_temp_char u 3 (by decide) hu]
      rw [show ("@" ++ Nat.repr (5 + 3) : String) = "@8" by decide]

theorem claim_C9_witness :
    (Translator.new "M").translate ParsedVMInstruction.Return =
      some { Translator.new "M" with
        asm := (Translator.new "M").asm ++ RETURN,
        next_instr := (Translator.new "M").next_instr + 44 } :=
  (claim_C9_return_clobbers_temp (Translator.new "M") (by decide)).1

/-- C10: all numeric operands and both generator counters are 16-bit:
`parseU16` only ever yields values at most 65535, accepts every decimal
numeral up to 65535 and rejects every larger numeral as well as every
negative token; appending a 65536th counted (non-label) instruction faults;
a call when the call counter has reached 65535 faults; and the Temp-segment
address `5 + idx` is computed in 16-bit arithmetic, so push/pop temp faults
for every index above 65530. -/
theorem claim_C10_u16_bounds :
    (∀ (s : String) (n : Nat), parseU16 s = some n → n ≤ 65535) ∧
    (∀ n : Nat, n ≤ 65535 → parseU16 (Nat.repr n) = some n) ∧
    (∀ n : Nat, 65535 < n → parseU16 (Nat.repr n) = none) ∧
    (∀ s : String, parseU16 ("-" ++ s) = none) ∧
    (∀ (t : Translator) (instr : String) (c : Char),
      instr.data.head? = some c → c ≠ '(' → t.next_instr = 65535 →
      t.add_instr instr = none) ∧
    (∀ (t : Translator) (name : String) (num_args : Nat),
      t.call_counter = 65535 → t.call name num_args = none) ∧
    (∀ (t : Translator) (idx : Nat), 65530 < idx →
      t.translate (ParsedVMInstruction.Pop MemorySegment.Temp idx) = none ∧
      t.translate (ParsedVMInstruction.Push MemorySegment.Temp idx) = none) := by
  refine ⟨?_, parseU16_repr_le, parseU16_repr_gt, parseU16_dash, ?_, call_fail_counter, ?_⟩
  · intro s n h
    exact parseU16_some_le h
  · intro t instr c hhead hc hn
    exact add_instr_fail hhead hc hn
  · intro t idx hidx
    constructor
    · simp only [Translator.translate]
      exact pop_temp_fail t idx (by omega)
    · simp only [Translator.translate]
      exact push_temp_fail t idx (by omega)

theorem claim_C10_witness :
    (Translator.new "M").translate (ParsedVMInstruction.Pop MemorySegment.Temp 65531) = none ∧
    (Translator.new "M").translate (ParsedVMInstruction.Push MemorySegment.Temp 65531) = none :=
  claim_C10_u16_bounds.2.2.2.2.2.2 (Translator.new "M") 65531 (by decide)

end VMTrans
